import Mathlib

/-!
Verification of the FluidFramework synchronization-core specification.

The visible source of the repository is a thin interface layer
(`ConnectionState`, `IRuntime`, `IContainerContext`, `isFluidPackage`, ...).
The behavioural core those interfaces describe (Sequencer Client, Quorum,
Connection State Machine, Outbound Queue, Runtime Dispatcher) is modelled
here from the specification, and the concrete code present in the source
(`ConnectionState`, `isFluidPackage`) is embedded directly.
-/

namespace Fluid

/-! ## Connection state (from source `ConnectionState` enum) -/

/-- Embedded from the source enum `ConnectionState`: the document is either
no longer connected to the delta server, has an inbound connection but is
still pending for outbound deltas, or is fully connected. -/
inductive ConnectionState where
  | Disconnected
  | Connecting
  | Connected
deriving DecidableEq, Repr

/-! ## Quorum consensus model -/

/-- Modelled from the spec: the Quorum implementation is absent from the
visible source (only the `IQuorum` interface is imported). A pending quorum
proposal: key, uninterpreted value, the sequence number at which the proposal was
sequenced, the proposer, and the required-acceptance set frozen from the
membership at proposal time. -/
structure Proposal where
  key : String
  value : String
  sn : Nat
  proposer : String
  required : List String
deriving DecidableEq, Repr

/-- Modelled from the spec: state of the quorum ledger, absent from the
visible source. `map` is the committed-facts map (key to value and commit
sequence number), `pending` the proposals not yet committed or rejected,
and `history` the stream of `committed` events in commit order. -/
structure QuorumState where
  members : List String
  map : List (String × String × Nat)
  pending : List Proposal
  history : List (String × String × Nat)
deriving DecidableEq, Repr

/-- Modelled from the spec: payload of a sequenced message as the quorum
sees it: a proposal broadcast, an acceptance or rejection referencing a
proposal sequence number, or any other message (operation, no-op). -/
inductive QPayload where
  | propose (key value : String)
  | accept (psn : Nat)
  | reject (psn : Nat)
  | other
deriving DecidableEq, Repr

/-- Modelled from the spec: a sequenced message as consumed by the quorum:
its authority-assigned sequence number, the sending client and payload. -/
structure QMsg where
  seq : Nat
  clientId : String
  payload : QPayload
deriving DecidableEq, Repr

/-- Committed-map insertion: later proposals for an already-committed key
overwrite it (last-committed-wins, no merge). -/
def qInsert (k : String) (v : String × Nat) :
    List (String × String × Nat) → List (String × String × Nat) :=
  fun m => (k, v) :: m.filter (fun e => e.1 ≠ k)

/-- Lookup in the committed-facts map. -/
def qLookup (k : String) : List (String × String × Nat) → Option (String × Nat)
  | [] => none
  | (k', v) :: rest => if k' = k then some v else qLookup k rest

/-- First pending proposal whose required-acceptance set has been emptied,
together with the remaining pending proposals in order. -/
def findEmpty : List Proposal → Option (Proposal × List Proposal)
  | [] => none
  | p :: ps =>
    if p.required = [] then some (p, ps)
    else
      match findEmpty ps with
      | some (q, rest) => some (q, p :: rest)
      | none => none

/-- Drop a departed client from a proposal's required-acceptance set. -/
def dropReq (c : String) (p : Proposal) : Proposal :=
  { p with required := p.required.filter (fun x => x ≠ c) }

/-- Modelled from the spec: membership effect of a committed fact — members
are added via a committed join fact and removed via a committed leave
fact; membership changes are themselves ordered quorum facts. -/
def applyMembership (p : Proposal) (members : List String) : List String :=
  if p.key = "leave" then members.filter (fun x => x ≠ p.value)
  else if p.key = "join" then
    if p.value ∈ members then members else members ++ [p.value]
  else members

/-- Modelled from the spec: once a committed leave fact removes a member
from membership, its required-acceptance entries are dropped from every
still-pending proposal. -/
def applyRequired (p : Proposal) (pending : List Proposal) : List Proposal :=
  if p.key = "leave" then pending.map (dropReq p.value) else pending

theorem findEmpty_length {l : List Proposal} {p : Proposal} {rest : List Proposal}
    (h : findEmpty l = some (p, rest)) : rest.length + 1 = l.length := by
  induction l generalizing p rest with
  | nil => simp [findEmpty] at h
  | cons a as ih =>
    simp only [findEmpty] at h
    by_cases ha : a.required = []
    · simp [ha] at h
      obtain ⟨h1, h2⟩ := h
      simp [← h2]
    · simp only [ha, if_false] at h
      cases hfe : findEmpty as with
      | none => simp [hfe] at h
      | some qr =>
        obtain ⟨q, r⟩ := qr
        rw [hfe] at h
        simp at h
        obtain ⟨h1, h2⟩ := h
        subst h1
        have := ih hfe
        simp [← h2, ← this]

theorem applyRequired_length (p : Proposal) (pending : List Proposal) :
    (applyRequired p pending).length = pending.length := by
  unfold applyRequired
  split <;> simp

/-- Modelled from the spec: the commit sweep, absent from the visible
source. Repeatedly commits the first pending proposal whose required set
is empty: the fact is written to the committed map (overwriting), the
committed event is appended to the history with the given commit sequence
number, membership join or leave effects are applied, and a leave drops
the departed member from the required sets of the remaining pending
proposals (which may unblock further commits in the same sweep). -/
def sweep (cseq : Nat) (st : QuorumState) : QuorumState :=
  match h : findEmpty st.pending with
  | none => st
  | some (p, rest) =>
    sweep cseq
      { members := applyMembership p st.members
        map := qInsert p.key (p.value, cseq) st.map
        pending := applyRequired p rest
        history := st.history ++ [(p.key, p.value, cseq)] }
termination_by st.pending.length
decreasing_by
  have hlen := findEmpty_length h
  simp [applyRequired_length]
  omega

/-- Modelled from the spec: the direct effect of one sequenced message on
the quorum state, before the commit sweep. A Propose creates a pending
proposal whose required-acceptance set is the membership snapshot frozen
at the sequence number at which the proposal was sequenced; an Accept from
a client removes that client from the referenced proposal's required set;
a Reject discards the referenced proposal without touching the map; any
other message leaves the quorum state unchanged. -/
def applyPayload (st : QuorumState) (m : QMsg) : QuorumState :=
  match m.payload with
  | .propose k v =>
    { st with pending := st.pending ++ [⟨k, v, m.seq, m.clientId, st.members⟩] }
  | .accept psn =>
    { st with pending := st.pending.map (fun p =>
        if p.sn = psn then { p with required := p.required.filter (fun x => x ≠ m.clientId) } else p) }
  | .reject psn =>
    { st with pending := st.pending.filter (fun p => p.sn ≠ psn) }
  | .other => st

/-- Modelled from the spec: processing of one sequenced message by the
quorum — apply the payload, then commit every proposal whose required set
is now empty; such a proposal commits at the sequence number following the
message that completed its acceptance. -/
def stepMsg (st : QuorumState) (m : QMsg) : QuorumState :=
  sweep (m.seq + 1) (applyPayload st m)

/-- Modelled from the spec: the empty quorum state a replaying client
starts from. -/
def initQuorum : QuorumState := ⟨[], [], [], []⟩

/-- Modelled from the spec: replaying a sequenced history from the empty
state. -/
def runQuorum (msgs : List QMsg) : QuorumState := msgs.foldl stepMsg initQuorum

/-- Modelled from the spec: one step of the quorum as a relation, one rule
per message kind, mirroring the described protocol (a Propose freezes the
membership snapshot into the new proposal's required set, an Accept
removes the accepting client from the referenced proposal's required set,
a Reject discards the proposal, anything else is inert; after each message
the completed proposals commit at the following sequence number). -/
inductive QuorumStep : QuorumState → QMsg → QuorumState → Prop where
  | propose (st : QuorumState) (m : QMsg) (k v : String)
      (hp : m.payload = .propose k v) :
      QuorumStep st m (sweep (m.seq + 1)
        { st with pending := st.pending ++ [⟨k, v, m.seq, m.clientId, st.members⟩] })
  | accept (st : QuorumState) (m : QMsg) (psn : Nat)
      (hp : m.payload = .accept psn) :
      QuorumStep st m (sweep (m.seq + 1)
        { st with pending := st.pending.map (fun p =>
            if p.sn = psn then
              { p with required := p.required.filter (fun x => x ≠ m.clientId) }
            else p) })
  | reject (st : QuorumState) (m : QMsg) (psn : Nat)
      (hp : m.payload = .reject psn) :
      QuorumStep st m (sweep (m.seq + 1)
        { st with pending := st.pending.filter (fun p => p.sn ≠ psn) })
  | other (st : QuorumState) (m : QMsg)
      (hp : m.payload = .other) :
      QuorumStep st m (sweep (m.seq + 1) st)

/-- Modelled from the spec: a run of the quorum over a sequenced history
starting from a given state. -/
inductive QuorumRunFrom : QuorumState → List QMsg → QuorumState → Prop where
  | nil (st : QuorumState) : QuorumRunFrom st [] st
  | cons {st st₁ st' : QuorumState} {m : QMsg} {ms : List QMsg}
      (h : QuorumStep st m st₁) (hs : QuorumRunFrom st₁ ms st') :
      QuorumRunFrom st (m :: ms) st'

/-- Modelled from the spec: a client replaying a sequenced history from
the empty state. -/
def QuorumRun (ms : List QMsg) (st : QuorumState) : Prop :=
  QuorumRunFrom initQuorum ms st

/-! ## Sequencer Client: gap detection -/

/-- Modelled from the spec: a sequenced message as seen by the Sequencer
Client and Runtime Dispatcher, absent from the visible source (only the
`ISequencedDocumentMessage` import names it): the authority-assigned
sequence number, the monotonic minimum sequence number, the sending
client (null for server-originated) and the client-local reference
number used for echo matching. -/
structure SeqMsg where
  sequenceNumber : Nat
  minimumSequenceNumber : Nat
  clientId : Option String
  refNum : Nat
deriving DecidableEq, Repr

/-- Modelled from the spec: the error taxonomy of the core; a
`sequenceGap` is fatal to the current connection. -/
inductive CoreError where
  | sequenceGap
deriving DecidableEq, Repr

/-- Modelled from the spec: inbound state of the Sequencer Client — the
last delivered sequence number and the delivered stream so far. -/
structure SeqClientState where
  lastDelivered : Nat
  delivered : List SeqMsg
deriving DecidableEq, Repr

/-- Modelled from the spec: gap detection in the Sequencer Client, absent
from the visible source. If an inbound message's sequence number is not
exactly one more than the last delivered, the client fails fast with a
sequence-gap error; otherwise the message is delivered. -/
def seqInbound (st : SeqClientState) (m : SeqMsg) : Except CoreError SeqClientState :=
  if m.sequenceNumber = st.lastDelivered + 1 then
    .ok { lastDelivered := m.sequenceNumber, delivered := st.delivered ++ [m] }
  else
    .error .sequenceGap

/-- Modelled from the spec: the connection-level handling of one inbound
message — a sequence-gap error is fatal to the current connection and
drops it to Disconnected, forcing a reconnect and catch-up cycle, while
the out-of-sequence message is neither delivered nor skipped over. -/
def onInbound (conn : ConnectionState) (st : SeqClientState) (m : SeqMsg) :
    ConnectionState × SeqClientState :=
  match seqInbound st m with
  | .ok st' => (conn, st')
  | .error _ => (ConnectionState.Disconnected, st)

/-! ## Runtime Dispatcher -/

/-- Modelled from the spec: dispatcher state, absent from the visible
source (only the `IRuntime.process` contract names it) — the sequence
number of the last message handed to `process` and the log of processed
messages. -/
structure DispatchState where
  lastProcessed : Nat
  processed : List SeqMsg
deriving DecidableEq, Repr

/-- Modelled from the spec: delivery of one inbound message by the Runtime
Dispatcher. Catch-up and live delivery are deduplicated by sequence number
(a message at or below the last processed sequence number is dropped), a
message at exactly the next sequence number is processed, and a message
beyond it is not delivered (the gap is surfaced and replay will redeliver
it; it is never skipped over). -/
def dispatchStep (st : DispatchState) (m : SeqMsg) : DispatchState :=
  if m.sequenceNumber ≤ st.lastProcessed then st
  else if m.sequenceNumber = st.lastProcessed + 1 then
    { lastProcessed := m.sequenceNumber, processed := st.processed ++ [m] }
  else st

/-- Modelled from the spec: the dispatcher run over an inbound stream
(which may contain catch-up replays of already-delivered messages across
reconnects), starting before any message has been processed. -/
def runDispatch (ms : List SeqMsg) : DispatchState := ms.foldl dispatchStep ⟨0, []⟩

/-! ## Connection State Machine and Outbound Queue -/

/-- Modelled from the spec: a locally created operation awaiting its echo,
owned by the Outbound Queue: the client-local reference number used to
match the later echo, and the uninterpreted payload. -/
structure PendingOp where
  refNum : Nat
  payload : String
deriving DecidableEq, Repr

/-- Modelled from the spec: the events driving the session — a local
submission, a connect request, catch-up completion with an assigned
client id, a detected connection failure, and an observed echo (a
sequenced message carrying a client id and a reference number). -/
inductive SEvent where
  | submitLocal (payload : String)
  | connectRequested
  | catchUpComplete (clientId : String)
  | connectionFailed
  | echo (clientId : String) (refNum : Nat)
deriving DecidableEq, Repr

/-- Modelled from the spec: the session handle combining the Connection
State Machine and the Outbound Queue, absent from the visible source:
connection state, the client id assigned by the ordering authority, the
queue of not-yet-acknowledged local operations, the next client-local
reference number, and the log of operations submitted to the network. -/
structure Session where
  conn : ConnectionState
  clientId : Option String
  queue : List PendingOp
  nextRef : Nat
  sent : List PendingOp
deriving DecidableEq, Repr

/-- Modelled from the spec: one step of the session. A local submission is
always enqueued (tagged with a fresh client-local reference number) and is
submitted to the network only while Connected; a connect request moves
Disconnected to Connecting; catch-up completion moves Connecting to
Connected, records the assigned client id, and flushes the Outbound Queue
to the network in FIFO order; a detected failure drops any state to
Disconnected, leaving the queue intact; an echo whose client id matches
the session's own removes the operation with the matching reference
number from the queue — and nothing else ever removes an operation. -/
def sessionStep (s : Session) (e : SEvent) : Session :=
  match e with
  | .submitLocal payload =>
    let op : PendingOp := ⟨s.nextRef, payload⟩
    { s with
      queue := s.queue ++ [op]
      nextRef := s.nextRef + 1
      sent := if s.conn = ConnectionState.Connected then s.sent ++ [op] else s.sent }
  | .connectRequested =>
    if s.conn = ConnectionState.Disconnected then
      { s with conn := ConnectionState.Connecting }
    else s
  | .catchUpComplete cid =>
    if s.conn = ConnectionState.Connecting then
      { s with
        conn := ConnectionState.Connected
        clientId := some cid
        sent := s.sent ++ s.queue }
    else s
  | .connectionFailed => { s with conn := ConnectionState.Disconnected }
  | .echo cid r =>
    if s.clientId = some cid then
      { s with queue := s.queue.filter (fun op => op.refNum ≠ r) }
    else s

/-- Modelled from the spec: the initial session — Disconnected, no client
id, empty queue, nothing sent. -/
def initSession : Session := ⟨ConnectionState.Disconnected, none, [], 0, []⟩

/-- Modelled from the spec: a session run over a list of events. -/
def runSession (es : List SEvent) : Session := es.foldl sessionStep initSession

/-- The operations created by a sequence of local submissions starting at
a given reference number: consecutive reference numbers, payloads in
submission order. -/
def mkOps (r : Nat) : List String → List PendingOp
  | [] => []
  | p :: ps => ⟨r, p⟩ :: mkOps (r + 1) ps

/-! ## Helper lemmas about the commit sweep -/

theorem findEmpty_eq_none_of_all {l : List Proposal}
    (h : ∀ p ∈ l, p.required ≠ []) : findEmpty l = none := by
  induction l with
  | nil => rfl
  | cons a as ih =>
    have ha : a.required ≠ [] := h a (List.mem_cons_self a as)
    have has : findEmpty as = none := ih (fun p hp => h p (List.mem_cons_of_mem a hp))
    simp [findEmpty, ha, has]

theorem findEmpty_some_spec {l : List Proposal} {p : Proposal} {rest : List Proposal}
    (h : findEmpty l = some (p, rest)) :
    p ∈ l ∧ p.required = [] ∧ ∀ r ∈ rest, r ∈ l := by
  induction l generalizing p rest with
  | nil => simp [findEmpty] at h
  | cons a as ih =>
    simp only [findEmpty] at h
    by_cases ha : a.required = []
    · rw [if_pos ha] at h
      simp only [Option.some.injEq, Prod.mk.injEq] at h
      obtain ⟨hp, hr⟩ := h
      subst hp; subst hr
      exact ⟨List.mem_cons_self _ _, ha, fun r hr => List.mem_cons_of_mem _ hr⟩
    · rw [if_neg ha] at h
      cases hfe : findEmpty as with
      | none => rw [hfe] at h; exact absurd h (by simp)
      | some qr =>
        obtain ⟨q, r⟩ := qr
        rw [hfe] at h
        simp only [Option.some.injEq, Prod.mk.injEq] at h
        obtain ⟨hq, hr⟩ := h
        subst hq
        obtain ⟨hmem, hreq, hrest⟩ := ih hfe
        refine ⟨List.mem_cons_of_mem _ hmem, hreq, ?_⟩
        intro x hx
        rw [← hr] at hx
        rcases List.mem_cons.mp hx with h1 | h2
        · exact h1 ▸ List.mem_cons_self _ _
        · exact List.mem_cons_of_mem _ (hrest x h2)

theorem findEmpty_some_of_mem {l : List Proposal} {q : Proposal}
    (hq : q ∈ l) (hreq : q.required = []) :
    ∃ p rest, findEmpty l = some (p, rest) := by
  cases hfe : findEmpty l with
  | none =>
    exfalso
    induction l with
    | nil => exact absurd hq (List.not_mem_nil q)
    | cons a as ih =>
      simp only [findEmpty] at hfe
      by_cases ha : a.required = []
      · rw [if_pos ha] at hfe; exact absurd hfe (by simp)
      · rw [if_neg ha] at hfe
        cases hfe2 : findEmpty as with
        | none =>
          rcases List.mem_cons.mp hq with h1 | h2
          · exact ha (h1 ▸ hreq)
          · exact ih h2 hfe2
        | some pr => rw [hfe2] at hfe; obtain ⟨x, y⟩ := pr; exact absurd hfe (by simp)
  | some pr =>
    obtain ⟨x, y⟩ := pr
    exact ⟨x, y, hfe ▸ rfl⟩

theorem sweep_eq_none (cseq : Nat) (st : QuorumState)
    (h : findEmpty st.pending = none) : sweep cseq st = st := by
  rw [sweep, h]

theorem sweep_eq_some (cseq : Nat) (st : QuorumState) (p : Proposal) (rest : List Proposal)
    (h : findEmpty st.pending = some (p, rest)) :
    sweep cseq st = sweep cseq
      { members := applyMembership p st.members
        map := qInsert p.key (p.value, cseq) st.map
        pending := applyRequired p rest
        history := st.history ++ [(p.key, p.value, cseq)] } := by
  conv_lhs => rw [sweep]
  rw [h]

theorem sweep_noop {cseq : Nat} {st : QuorumState}
    (h : ∀ q ∈ st.pending, q.required ≠ []) : sweep cseq st = st :=
  sweep_eq_none cseq st (findEmpty_eq_none_of_all h)

theorem qLookup_qInsert_self (k : String) (v : String × Nat)
    (m : List (String × String × Nat)) : qLookup k (qInsert k v m) = some v := by
  simp [qInsert, qLookup]

end Fluid

/-! ## Package classification (from source `isFluidPackage`) -/

namespace FluidPkg

/-- A JavaScript value, as far as the package-record check needs one:
undefined, null, a boolean, a string, or an object with named fields. -/
inductive JsValue where
  | undefined
  | nullv
  | boolean (b : Bool)
  | str (s : String)
  | obj (fields : List (String × JsValue))

/-- JavaScript truthiness of a `JsValue`. -/
def truthy : JsValue → Bool
  | .undefined => false
  | .nullv => false
  | .boolean b => b
  | .str s => s ≠ ""
  | .obj _ => true

/-- Field lookup in a JavaScript object's field list (first match). -/
def getField : List (String × JsValue) → String → JsValue
  | [], _ => .undefined
  | (k', v) :: rest, k => if k' = k then v else getField rest k

/-- JavaScript property access as used here: a missing field of an object
reads as undefined; the check below only dereferences values it has
already found truthy. -/
def jsGet : JsValue → String → JsValue
  | .obj fields, k => getField fields k
  | _, _ => .undefined

/-- Embedded from the source function `isFluidPackage`:
`return pkg.fluid && pkg.fluid.browser && pkg.fluid.browser.umd;` —
JavaScript `&&` returns its left operand when that operand is falsy and
its right operand otherwise, so the result is the first falsy operand or
the final `umd` value. -/
def isFluidPackage (pkg : JsValue) : JsValue :=
  let f := jsGet pkg "fluid"
  if truthy f then
    let b := jsGet f "browser"
    if truthy b then jsGet b "umd" else b
  else f

/-- A package record whose `fluid.browser` section defines only a library
target other than `umd` (here `cjs`), which the `IFluidPackage` type
permits. -/
def cjsOnlyPackage : JsValue :=
  .obj [("name", .str "sample"),
        ("version", .str "1.0.0"),
        ("fluid", .obj [("browser", .obj [("cjs",
          .obj [("files", .obj []), ("library", .str "sample")])])])]

/-- A package record with no `fluid` entry at all. -/
def plainPackage : JsValue :=
  .obj [("name", .str "plain"), ("version", .str "2.0.0")]

end FluidPkg

namespace Fluid

/-! ## Connection state machine and session theorems -/

theorem sessionStep_conn_connected {s : Session} {e : SEvent}
    (h : (sessionStep s e).conn = ConnectionState.Connected) :
    s.conn = ConnectionState.Connecting ∨ s.conn = ConnectionState.Connected := by
  cases e with
  | submitLocal p => right; simpa [sessionStep] using h
  | connectRequested =>
    by_cases hc : s.conn = ConnectionState.Disconnected
    · simp [sessionStep, hc] at h
    · right; simpa [sessionStep, hc] using h
  | catchUpComplete cid =>
    by_cases hc : s.conn = ConnectionState.Connecting
    · left; exact hc
    · right; simpa [sessionStep, hc] using h
  | connectionFailed => simp [sessionStep] at h
  | echo cid r =>
    right
    simp only [sessionStep] at h
    split at h
    · exact h
    · exact h

theorem runSession_connected_has_connecting :
    ∀ es : List SEvent, (runSession es).conn = ConnectionState.Connected →
    ∃ es₁ es₂ : List SEvent,
      es = es₁ ++ es₂ ∧ (runSession es₁).conn = ConnectionState.Connecting := by
  intro es
  induction es using List.reverseRecOn with
  | nil => intro h; simp [runSession, initSession] at h
  | append_singleton es e ih =>
    intro h
    have hstep : (sessionStep (runSession es) e).conn = ConnectionState.Connected := by
      rw [runSession, List.foldl_append] at h
      simpa [runSession] using h
    rcases sessionStep_conn_connected hstep with h1 | h2
    · exact ⟨es, [e], rfl, h1⟩
    · obtain ⟨a, b, hab, hconn⟩ := ih h2
      exact ⟨a, b ++ [e], by rw [hab, List.append_assoc], hconn⟩

/-- C6: the connection state machine starts in Disconnected and only ever
takes the transitions Disconnected to Connecting, Connecting to Connected,
and Connected or Connecting to Disconnected; it never reaches Connected
without previously being in Connecting, and a local submission in any
state other than Connected sends nothing to the network. -/
theorem C6_connection_state_machine :
    initSession.conn = ConnectionState.Disconnected
    ∧ (∀ (s : Session) (e : SEvent),
        (sessionStep s e).conn = s.conn
        ∨ (s.conn = ConnectionState.Disconnected
            ∧ (sessionStep s e).conn = ConnectionState.Connecting)
        ∨ (s.conn = ConnectionState.Connecting
            ∧ (sessionStep s e).conn = ConnectionState.Connected)
        ∨ ((s.conn = ConnectionState.Connected ∨ s.conn = ConnectionState.Connecting)
            ∧ (sessionStep s e).conn = ConnectionState.Disconnected))
    ∧ (∀ es : List SEvent, (runSession es).conn = ConnectionState.Connected →
        ∃ es₁ es₂ : List SEvent,
          es = es₁ ++ es₂ ∧ (runSession es₁).conn = ConnectionState.Connecting)
    ∧ (∀ (s : Session) (p : String), s.conn ≠ ConnectionState.Connected →
        (sessionStep s (SEvent.submitLocal p)).sent = s.sent) := by
  refine ⟨rfl, ?_, runSession_connected_has_connecting, ?_⟩
  · intro s e
    cases e with
    | submitLocal p => left; simp [sessionStep]
    | connectRequested =>
      by_cases hc : s.conn = ConnectionState.Disconnected
      · right; left; exact ⟨hc, by simp [sessionStep, hc]⟩
      · left; simp [sessionStep, hc]
    | catchUpComplete cid =>
      by_cases hc : s.conn = ConnectionState.Connecting
      · right; right; left; exact ⟨hc, by simp [sessionStep, hc]⟩
      · left; simp [sessionStep, hc]
    | connectionFailed =>
      by_cases hc : s.conn = ConnectionState.Disconnected
      · left; simp [sessionStep, hc]
      · right; right; right
        refine ⟨?_, by simp [sessionStep]⟩
        cases hc2 : s.conn with
        | Disconnected => exact absurd hc2 hc
        | Connecting => right; rfl
        | Connected => left; rfl
    | echo cid r =>
      left
      simp only [sessionStep]
      split
      · rfl
      · rfl
  · intro s p h
    simp [sessionStep, h]

theorem C6_witness :
    ∃ es₁ es₂ : List SEvent,
      ([SEvent.connectRequested, SEvent.catchUpComplete "c1"] : List SEvent) = es₁ ++ es₂
      ∧ (runSession es₁).conn = ConnectionState.Connecting :=
  C6_connection_state_machine.2.2.1
    [SEvent.connectRequested, SEvent.catchUpComplete "c1"] (by decide)

/-- C7: an operation is removed from the Outbound Queue only by an echo
whose client id matches the session's own id and whose reference number
matches the operation's; in particular an operation submitted while
Connected (hence sent to the network) is still in the queue after a
subsequent disconnect. -/
theorem C7_removal_only_on_echo :
    (∀ (s : Session) (op : PendingOp) (e : SEvent),
      op ∈ s.queue →
      (∀ cid r, e = SEvent.echo cid r → ¬(s.clientId = some cid ∧ op.refNum = r)) →
      op ∈ (sessionStep s e).queue)
    ∧ (∀ (s : Session) (p : String), s.conn = ConnectionState.Connected →
        (PendingOp.mk s.nextRef p) ∈
          (sessionStep (sessionStep s (SEvent.submitLocal p)) SEvent.connectionFailed).queue
        ∧ (PendingOp.mk s.nextRef p) ∈ (sessionStep s (SEvent.submitLocal p)).sent) := by
  constructor
  · intro s op e hop he
    cases e with
    | submitLocal p =>
      simp only [sessionStep]
      exact List.mem_append_left _ hop
    | connectRequested =>
      simp only [sessionStep]
      split
      · exact hop
      · exact hop
    | catchUpComplete cid =>
      simp only [sessionStep]
      split
      · exact hop
      · exact hop
    | connectionFailed => exact hop
    | echo cid r =>
      by_cases hc : s.clientId = some cid
      · have hr : ¬ op.refNum = r := fun h => he cid r rfl ⟨hc, h⟩
        simp only [sessionStep, if_pos hc]
        simp [List.mem_filter, hop, hr]
      · simp only [sessionStep, if_neg hc]
        exact hop
  · intro s p hconn
    refine ⟨?_, ?_⟩
    · simp [sessionStep]
    · simp [sessionStep, hconn]

theorem C7_witness :
    (PendingOp.mk 0 "op") ∈
      (sessionStep (sessionStep ⟨ConnectionState.Connected, some "c1", [], 0, []⟩
        (SEvent.submitLocal "op")) SEvent.connectionFailed).queue
    ∧ (PendingOp.mk 0 "op") ∈
        (sessionStep ⟨ConnectionState.Connected, some "c1", [], 0, []⟩
          (SEvent.submitLocal "op")).sent :=
  C7_removal_only_on_echo.2 ⟨ConnectionState.Connected, some "c1", [], 0, []⟩ "op" rfl

/-! ## Sequencer Client gap-detection theorems -/

/-- C5: an inbound message whose sequence number is not exactly one more
than the last delivered makes the Sequencer Client fail with the
sequence-gap error, which is fatal to the current connection (it drops to
Disconnected, forcing a reconnect and catch-up cycle), and the
out-of-sequence message is neither delivered nor is the gap skipped: the
inbound state is unchanged. -/
theorem C5_gap_error (conn : ConnectionState) (st : SeqClientState) (m : SeqMsg)
    (h : m.sequenceNumber ≠ st.lastDelivered + 1) :
    seqInbound st m = Except.error CoreError.sequenceGap
    ∧ onInbound conn st m = (ConnectionState.Disconnected, st) := by
  have h1 : seqInbound st m = Except.error CoreError.sequenceGap := by
    simp [seqInbound, h]
  refine ⟨h1, ?_⟩
  simp [onInbound, h1]

/-! ## Runtime Dispatcher theorems -/

theorem dispatchStep_inv {st : DispatchState} {m : SeqMsg}
    (h1 : st.lastProcessed = st.processed.length)
    (h2 : st.processed.map (fun x => x.sequenceNumber) = List.range' 1 st.processed.length)
    (h3 : ∀ x ∈ st.processed, x.minimumSequenceNumber ≤ x.sequenceNumber)
    (hm : m.minimumSequenceNumber ≤ m.sequenceNumber) :
    (dispatchStep st m).lastProcessed = (dispatchStep st m).processed.length
    ∧ (dispatchStep st m).processed.map (fun x => x.sequenceNumber)
        = List.range' 1 (dispatchStep st m).processed.length
    ∧ ∀ x ∈ (dispatchStep st m).processed,
        x.minimumSequenceNumber ≤ x.sequenceNumber := by
  unfold dispatchStep
  by_cases hle : m.sequenceNumber ≤ st.lastProcessed
  · rw [if_pos hle]
    exact ⟨h1, h2, h3⟩
  · rw [if_neg hle]
    by_cases heq : m.sequenceNumber = st.lastProcessed + 1
    · rw [if_pos heq]
      refine ⟨?_, ?_, ?_⟩
      · simp [heq, h1]
      · simp only [List.map_append, List.map_cons, List.map_nil, List.length_append,
          List.length_cons, List.length_nil]
        rw [h2, List.range'_concat]
        have : m.sequenceNumber = 1 + 1 * st.processed.length := by omega
        rw [this]
      · intro x hx
        rcases List.mem_append.mp hx with h | h
        · exact h3 x h
        · have : x = m := by simpa using h
          subst this
          exact hm
    · rw [if_neg heq]
      exact ⟨h1, h2, h3⟩

theorem dispatch_fold_inv (ms : List SeqMsg) :
    ∀ st : DispatchState,
      st.lastProcessed = st.processed.length →
      st.processed.map (fun x => x.sequenceNumber) = List.range' 1 st.processed.length →
      (∀ x ∈ st.processed, x.minimumSequenceNumber ≤ x.sequenceNumber) →
      (∀ x ∈ ms, x.minimumSequenceNumber ≤ x.sequenceNumber) →
      (ms.foldl dispatchStep st).lastProcessed = (ms.foldl dispatchStep st).processed.length
      ∧ (ms.foldl dispatchStep st).processed.map (fun x => x.sequenceNumber)
          = List.range' 1 (ms.foldl dispatchStep st).processed.length
      ∧ ∀ x ∈ (ms.foldl dispatchStep st).processed,
          x.minimumSequenceNumber ≤ x.sequenceNumber := by
  induction ms with
  | nil => intro st i1 i2 i3 _; exact ⟨i1, i2, i3⟩
  | cons m ms ih =>
    intro st i1 i2 i3 hwf
    simp only [List.foldl_cons]
    obtain ⟨j1, j2, j3⟩ :=
      dispatchStep_inv i1 i2 i3 (hwf m (List.mem_cons_self m ms))
    exact ih (dispatchStep st m) j1 j2 j3
      (fun x hx => hwf x (List.mem_cons_of_mem m hx))

/-- C3: running the Runtime Dispatcher over any inbound stream — including
streams containing catch-up replays of already-delivered messages after
reconnects — in which every message satisfies the authority invariant
minimumSequenceNumber ≤ sequenceNumber, delivers messages whose sequence
numbers are exactly 1, 2, ..., n in order: strictly increasing, gap-free,
each sequence number delivered exactly once, and every delivered message
satisfies minimumSequenceNumber ≤ sequenceNumber. -/
theorem C3_dispatch_in_order_exactly_once (ms : List SeqMsg)
    (hwf : ∀ m ∈ ms, m.minimumSequenceNumber ≤ m.sequenceNumber) :
    ((runDispatch ms).processed.map (fun m => m.sequenceNumber)
        = List.range' 1 (runDispatch ms).processed.length)
    ∧ List.Pairwise (fun a b => a.sequenceNumber < b.sequenceNumber)
        (runDispatch ms).processed
    ∧ ((runDispatch ms).processed.map (fun m => m.sequenceNumber)).Nodup
    ∧ (∀ n, 1 ≤ n → n ≤ (runDispatch ms).lastProcessed →
        n ∈ (runDispatch ms).processed.map (fun m => m.sequenceNumber))
    ∧ (∀ m ∈ (runDispatch ms).processed,
        m.minimumSequenceNumber ≤ m.sequenceNumber) := by
  obtain ⟨i1, i2, i3⟩ := dispatch_fold_inv ms ⟨0, []⟩ rfl rfl (by simp) hwf
  have h1 : (runDispatch ms).lastProcessed = (runDispatch ms).processed.length := i1
  have h2 : (runDispatch ms).processed.map (fun m => m.sequenceNumber)
      = List.range' 1 (runDispatch ms).processed.length := i2
  have h3 : ∀ m ∈ (runDispatch ms).processed,
      m.minimumSequenceNumber ≤ m.sequenceNumber := i3
  refine ⟨h2, ?_, ?_, ?_, h3⟩
  · have hp : List.Pairwise (· < ·)
        ((runDispatch ms).processed.map (fun m => m.sequenceNumber)) := by
      rw [h2]
      exact List.pairwise_lt_range' 1 _
    exact (List.pairwise_map.mp hp)
  · rw [h2]
    exact List.nodup_range' 1 _
  · intro n hn1 hn2
    rw [h2, List.mem_range'_1]
    omega

theorem C3_witness :
    ((runDispatch [⟨1, 0, none, 0⟩, ⟨2, 1, some "c1", 7⟩, ⟨2, 1, some "c1", 7⟩,
        ⟨3, 2, none, 0⟩, ⟨5, 2, none, 0⟩, ⟨4, 3, none, 0⟩]).processed.map
          (fun m => m.sequenceNumber)
        = List.range' 1 (runDispatch [⟨1, 0, none, 0⟩, ⟨2, 1, some "c1", 7⟩,
            ⟨2, 1, some "c1", 7⟩, ⟨3, 2, none, 0⟩, ⟨5, 2, none, 0⟩,
            ⟨4, 3, none, 0⟩]).processed.length) := by
  have := C3_dispatch_in_order_exactly_once
    [⟨1, 0, none, 0⟩, ⟨2, 1, some "c1", 7⟩, ⟨2, 1, some "c1", 7⟩,
     ⟨3, 2, none, 0⟩, ⟨5, 2, none, 0⟩, ⟨4, 3, none, 0⟩] (by decide)
  exact this.1

/-! ## Outbound Queue flush theorems -/

theorem mkOps_ref_ge {r : Nat} {ps : List String} {op : PendingOp}
    (h : op ∈ mkOps r ps) : r ≤ op.refNum := by
  induction ps generalizing r with
  | nil => simp [mkOps] at h
  | cons p ps ih =>
    rcases List.mem_cons.mp h with h | h
    · subst h; exact Nat.le_refl r
    · exact Nat.le_trans (Nat.le_succ r) (ih h)

theorem mkOps_count_one {r : Nat} {ps : List String} {op : PendingOp}
    (h : op ∈ mkOps r ps) : (mkOps r ps).count op = 1 := by
  induction ps generalizing r with
  | nil => simp [mkOps] at h
  | cons p ps ih =>
    simp only [mkOps]
    rcases List.mem_cons.mp h with h | h
    · subst h
      rw [List.count_cons_self]
      have hnot : (⟨r, p⟩ : PendingOp) ∉ mkOps (r + 1) ps := by
        intro hmem
        have := mkOps_ref_ge hmem
        simp at this
      rw [List.count_eq_zero.mpr hnot]
    · have hne : op ≠ ⟨r, p⟩ := by
        intro he
        have := mkOps_ref_ge h
        rw [he] at this
        simp at this
      rw [List.count_cons_of_ne hne]
      exact ih h

theorem sessionStep_submit_conn (s : Session) (p : String) :
    (sessionStep s (SEvent.submitLocal p)).conn = s.conn := rfl

theorem sessionStep_submit_clientId (s : Session) (p : String) :
    (sessionStep s (SEvent.submitLocal p)).clientId = s.clientId := rfl

theorem sessionStep_submit_queue (s : Session) (p : String) :
    (sessionStep s (SEvent.submitLocal p)).queue = s.queue ++ [⟨s.nextRef, p⟩] := rfl

theorem sessionStep_submit_nextRef (s : Session) (p : String) :
    (sessionStep s (SEvent.submitLocal p)).nextRef = s.nextRef + 1 := rfl

theorem sessionStep_submit_sent (s : Session) (p : String)
    (h : s.conn ≠ ConnectionState.Connected) :
    (sessionStep s (SEvent.submitLocal p)).sent = s.sent := by
  simp [sessionStep, h]

theorem submit_fold (ps : List String) :
    ∀ s : Session, s.conn ≠ ConnectionState.Connected →
    (ps.foldl (fun s p => sessionStep s (SEvent.submitLocal p)) s).conn = s.conn
    ∧ (ps.foldl (fun s p => sessionStep s (SEvent.submitLocal p)) s).clientId = s.clientId
    ∧ (ps.foldl (fun s p => sessionStep s (SEvent.submitLocal p)) s).queue
        = s.queue ++ mkOps s.nextRef ps
    ∧ (ps.foldl (fun s p => sessionStep s (SEvent.submitLocal p)) s).sent = s.sent := by
  induction ps with
  | nil => intro s _; simp [mkOps]
  | cons p ps ih =>
    intro s hc
    simp only [List.foldl_cons]
    obtain ⟨a, b, c, d⟩ := ih (sessionStep s (SEvent.submitLocal p))
      (by rw [sessionStep_submit_conn]; exact hc)
    refine ⟨?_, ?_, ?_, ?_⟩
    · rw [a, sessionStep_submit_conn]
    · rw [b, sessionStep_submit_clientId]
    · rw [c, sessionStep_submit_queue, sessionStep_submit_nextRef]
      simp [mkOps]
    · rw [d, sessionStep_submit_sent s p hc]

/-- C4: operations enqueued while Disconnected are not sent before the
Connected transition; on the Connecting-to-Connected transition the
Outbound Queue is flushed so that the submitted stream is extended by the
previously queued operations followed by the newly enqueued ones, in
original enqueue order with their client-local reference numbers
preserved; and under fresh reference numbering each newly enqueued
operation appears in the submitted stream exactly once. -/
theorem C4_disconnected_enqueue_flush (s₀ : Session) (ps : List String) (cid : String)
    (hconn : s₀.conn = ConnectionState.Disconnected)
    (hfresh : ∀ op ∈ s₀.sent ++ s₀.queue, op.refNum < s₀.nextRef) :
    (ps.foldl (fun s p => sessionStep s (SEvent.submitLocal p)) s₀).sent = s₀.sent
    ∧ (sessionStep (sessionStep
        (ps.foldl (fun s p => sessionStep s (SEvent.submitLocal p)) s₀)
        SEvent.connectRequested) (SEvent.catchUpComplete cid)).sent
      = s₀.sent ++ s₀.queue ++ mkOps s₀.nextRef ps
    ∧ ∀ op ∈ mkOps s₀.nextRef ps,
        (sessionStep (sessionStep
          (ps.foldl (fun s p => sessionStep s (SEvent.submitLocal p)) s₀)
          SEvent.connectRequested) (SEvent.catchUpComplete cid)).sent.count op = 1 := by
  have hnc : s₀.conn ≠ ConnectionState.Connected := by
    rw [hconn]; intro h; cases h
  obtain ⟨a, b, c, d⟩ := submit_fold ps s₀ hnc
  set s₁ := ps.foldl (fun s p => sessionStep s (SEvent.submitLocal p)) s₀ with hs₁
  have hconn1 : s₁.conn = ConnectionState.Disconnected := by rw [a, hconn]
  have hstep1 : sessionStep s₁ SEvent.connectRequested = { s₁ with conn := ConnectionState.Connecting } := by
    simp [sessionStep, hconn1]
  have hstep2 : sessionStep (sessionStep s₁ SEvent.connectRequested) (SEvent.catchUpComplete cid) = { s₁ with conn := ConnectionState.Connected, clientId := some cid, sent := s₁.sent ++ s₁.queue } := by
    rw [hstep1]
    rfl
  refine ⟨d, ?_, ?_⟩
  · rw [hstep2]
    simp only [d, c]
    rw [List.append_assoc]
  · intro op hop
    rw [hstep2]
    simp only [d, c]
    have hge := mkOps_ref_ge hop
    have hsent : op ∉ s₀.sent := by
      intro hmem
      have := hfresh op (List.mem_append_left _ hmem)
      omega
    have hqueue : op ∉ s₀.queue := by
      intro hmem
      have := hfresh op (List.mem_append_right _ hmem)
      omega
    rw [List.count_append, List.count_append]
    rw [List.count_eq_zero.mpr hsent, List.count_eq_zero.mpr hqueue,
      mkOps_count_one hop]

theorem C4_witness :
    (((["x", "y"] : List String).foldl
        (fun s p => sessionStep s (SEvent.submitLocal p)) initSession).sent = initSession.sent)
    ∧ (sessionStep (sessionStep
        ((["x", "y"] : List String).foldl
          (fun s p => sessionStep s (SEvent.submitLocal p)) initSession)
        SEvent.connectRequested) (SEvent.catchUpComplete "c1")).sent
      = initSession.sent ++ initSession.queue ++ mkOps initSession.nextRef ["x", "y"]
    ∧ ∀ op ∈ mkOps initSession.nextRef ["x", "y"],
        (sessionStep (sessionStep
          ((["x", "y"] : List String).foldl
            (fun s p => sessionStep s (SEvent.submitLocal p)) initSession)
          SEvent.connectRequested) (SEvent.catchUpComplete "c1")).sent.count op = 1 :=
  C4_disconnected_enqueue_flush initSession ["x", "y"] "c1" rfl (by simp [initSession])

/-! ## Determinism of consensus replay -/

theorem quorumStep_det {st s₁ s₂ : QuorumState} {m : QMsg}
    (h1 : QuorumStep st m s₁) (h2 : QuorumStep st m s₂) : s₁ = s₂ := by
  cases h1 <;> cases h2 <;> simp_all

theorem quorumStep_stepMsg (st : QuorumState) (m : QMsg) :
    QuorumStep st m (stepMsg st m) := by
  cases hp : m.payload with
  | propose k v =>
    have := QuorumStep.propose st m k v hp
    simpa [stepMsg, applyPayload, hp] using this
  | accept psn =>
    have := QuorumStep.accept st m psn hp
    simpa [stepMsg, applyPayload, hp] using this
  | reject psn =>
    have := QuorumStep.reject st m psn hp
    simpa [stepMsg, applyPayload, hp] using this
  | other =>
    have := QuorumStep.other st m hp
    simpa [stepMsg, applyPayload, hp] using this

theorem quorumRunFrom_det {st s₁ s₂ : QuorumState} {ms : List QMsg}
    (h1 : QuorumRunFrom st ms s₁) (h2 : QuorumRunFrom st ms s₂) : s₁ = s₂ := by
  induction h1 generalizing s₂ with
  | nil st => cases h2; rfl
  | cons hstep hrun ih =>
    cases h2 with
    | cons hstep2 hrun2 =>
      have heq := quorumStep_det hstep hstep2
      subst heq
      exact ih hrun2

theorem quorumRunFrom_foldl (st : QuorumState) (ms : List QMsg) :
    QuorumRunFrom st ms (ms.foldl stepMsg st) := by
  induction ms generalizing st with
  | nil => exact QuorumRunFrom.nil st
  | cons m ms ih =>
    exact QuorumRunFrom.cons (quorumStep_stepMsg st m) (ih (stepMsg st m))

theorem quorumRun_runQuorum (ms : List QMsg) : QuorumRun ms (runQuorum ms) :=
  quorumRunFrom_foldl initQuorum ms

/-- C2: two runs of the quorum protocol over the exact same sequenced
history, both starting from the empty state, end in the same state, so
the committed quorum maps are identical and every committed key carries
the identical commit sequence number in both runs. -/
theorem C2_replay_determinism (ms : List QMsg) (s₁ s₂ : QuorumState)
    (h1 : QuorumRun ms s₁) (h2 : QuorumRun ms s₂) :
    s₁.map = s₂.map
    ∧ s₁.history = s₂.history
    ∧ ∀ k, qLookup k s₁.map = qLookup k s₂.map := by
  have heq := quorumRunFrom_det h1 h2
  subst heq
  exact ⟨rfl, rfl, fun _ => rfl⟩

/-! ## Commit at the sequence number following the last required accept -/

theorem sweep_lookup (cseq : Nat) (k v : String) (hk : k ≠ "leave") :
    ∀ (n : Nat) (st : QuorumState), st.pending.length ≤ n →
    (∀ q ∈ st.pending, q.required = [] → q.key = k ∧ q.value = v) →
    (∃ q ∈ st.pending, q.required = []) →
    qLookup k (sweep cseq st).map = some (v, cseq) := by
  intro n
  induction n with
  | zero =>
    intro st hlen hall hex
    obtain ⟨q, hq, hreq⟩ := hex
    have hnil : st.pending = [] := List.length_eq_zero.mp (Nat.le_zero.mp hlen)
    rw [hnil] at hq
    exact absurd hq (List.not_mem_nil q)
  | succ n ih =>
    intro st hlen hall hex
    obtain ⟨q, hq, hreq⟩ := hex
    obtain ⟨p, rest, hfe⟩ := findEmpty_some_of_mem hq hreq
    obtain ⟨hpmem, hpreq, hrest⟩ := findEmpty_some_spec hfe
    obtain ⟨hpk, hpv⟩ := hall p hpmem hpreq
    rw [sweep_eq_some _ _ _ _ hfe]
    have hAR : applyRequired p rest = rest := by
      unfold applyRequired
      rw [if_neg (by rw [hpk]; exact hk)]
    by_cases hex2 : ∃ q2 ∈ rest, q2.required = []
    · apply ih
      · simp only [hAR]
        have := findEmpty_length hfe
        omega
      · intro q2 hq2 hr2
        simp only [hAR] at hq2
        exact hall q2 (hrest q2 hq2) hr2
      · simp only [hAR]
        exact hex2
    · rw [sweep_noop]
      · simp only
        rw [hpk, hpv]
        exact qLookup_qInsert_self k (v, cseq) st.map
      · intro q2 hq2
        simp only [hAR] at hq2
        intro hr2
        exact hex2 ⟨q2, hq2, hr2⟩

theorem accept_step_pending (st : QuorumState) (a : QMsg) (psn : Nat)
    (hpa : a.payload = QPayload.accept psn) :
    applyPayload st a = { st with pending := st.pending.map (fun q =>
      if q.sn = psn then
        { q with required := q.required.filter (fun x => x ≠ a.clientId) }
      else q) } := by
  simp [applyPayload, hpa]

theorem accept_run_commits :
    ∀ (accs : List QMsg) (st : QuorumState) (p : Proposal) (last : QMsg),
      p ∈ st.pending →
      (∀ q ∈ st.pending, q.sn = p.sn → q = p) →
      (∀ q ∈ st.pending, q ≠ p → q.required ≠ []) →
      p.required.Nodup →
      accs.map (fun x => x.clientId) = p.required →
      (∀ x ∈ accs, x.payload = QPayload.accept p.sn) →
      accs.getLast? = some last →
      p.key ≠ "leave" →
      qLookup p.key (accs.foldl stepMsg st).map = some (p.value, last.seq + 1) := by
  intro accs
  induction accs with
  | nil =>
    intro st p last _ _ _ _ _ _ hlast _
    simp at hlast
  | cons a accs ih =>
    intro st p last hp huniq hne hnd hmap hpay hlast hkey
    have hpa : a.payload = QPayload.accept p.sn := hpay a (List.mem_cons_self a accs)
    have hreq : p.required = a.clientId :: accs.map (fun x => x.clientId) := by
      rw [← hmap]; rfl
    have hnotin : a.clientId ∉ accs.map (fun x => x.clientId) := by
      have h2 := hnd
      rw [hreq] at h2
      exact (List.nodup_cons.mp h2).1
    set g : Proposal → Proposal := fun q =>
      if q.sn = p.sn then
        { q with required := q.required.filter (fun x => x ≠ a.clientId) }
      else q with hg
    have happ : applyPayload st a = { st with pending := st.pending.map g } :=
      accept_step_pending st a p.sn hpa
    have hfilter : p.required.filter (fun x => x ≠ a.clientId)
        = accs.map (fun x => x.clientId) := by
      rw [hreq]
      have h1 : (a.clientId :: accs.map (fun x => x.clientId)).filter
          (fun x => x ≠ a.clientId)
          = (accs.map (fun x => x.clientId)).filter (fun x => x ≠ a.clientId) := by
        simp
      rw [h1, List.filter_eq_self.mpr]
      intro x hx
      have hxne : x ≠ a.clientId := fun hxx => hnotin (hxx ▸ hx)
      simp [hxne]
    have hgp : g p = { p with required := accs.map (fun x => x.clientId) } := by
      have hfilter2 : List.filter (fun x => !decide (x = a.clientId)) p.required
          = List.map (fun x => x.clientId) accs := by simpa using hfilter
      simp [hg, hfilter2]
    have hchar : ∀ q2 ∈ st.pending.map g,
        q2 = g p ∨ (q2 ∈ st.pending ∧ q2.sn ≠ p.sn) := by
      intro q2 hq2
      obtain ⟨r, hr, hgr⟩ := List.mem_map.mp hq2
      by_cases hsn : r.sn = p.sn
      · left
        rw [← hgr, huniq r hr hsn]
      · right
        have hid : g r = r := by rw [hg]; simp [hsn]
        rw [← hgr, hid]
        exact ⟨hr, hsn⟩
    cases accs with
    | nil =>
      have hlast2 : a = last := by simpa using hlast
      subst hlast2
      simp only [List.foldl_cons, List.foldl_nil]
      rw [stepMsg, happ]
      apply sweep_lookup (a.seq + 1) p.key p.value hkey st.pending.length
      · simp
      · intro q2 hq2 hr2
        simp only at hq2
        rcases hchar q2 hq2 with h | ⟨hmem, hsn⟩
        · rw [h, hgp]
          exact ⟨rfl, rfl⟩
        · exact absurd hr2 (hne q2 hmem (fun he => hsn (by rw [he])))
      · refine ⟨g p, ?_, ?_⟩
        · simp only
          exact List.mem_map_of_mem g hp
        · rw [hgp]
          rfl
    | cons a2 accs2 =>
      have hlast2 : (a2 :: accs2).getLast? = some last := by
        rw [← hlast]
        rfl
      have hnoop : stepMsg st a = { st with pending := st.pending.map g } := by
        rw [stepMsg, happ]
        apply sweep_noop
        intro q2 hq2
        simp only at hq2
        rcases hchar q2 hq2 with h | ⟨hmem, hsn⟩
        · rw [h, hgp]
          simp
        · exact hne q2 hmem (fun he => hsn (by rw [he]))
      simp only [List.foldl_cons]
      rw [hnoop]
      have hmain := ih { st with pending := st.pending.map g } (g p) last
        (by simp only; exact List.mem_map_of_mem g hp)
        (by
          intro q2 hq2 hsn2
          simp only at hq2
          rcases hchar q2 hq2 with h | ⟨hmem, hsn⟩
          · exact h
          · exfalso
            apply hsn
            rw [hsn2, hgp]
        )
        (by
          intro q2 hq2 hne2
          simp only at hq2
          rcases hchar q2 hq2 with h | ⟨hmem, hsn⟩
          · exact absurd h hne2
          · exact hne q2 hmem (fun he => hsn (by rw [he]))
        )
        (by
          rw [hgp]
          simp only
          have h2 := hnd
          rw [hreq] at h2
          exact (List.nodup_cons.mp h2).2
        )
        (by rw [hgp])
        (by
          intro x hx
          have hgsn : (g p).sn = p.sn := by rw [hgp]
          rw [hgsn]
          exact hpay x (List.mem_cons_of_mem a hx)
        )
        hlast2
        (by
          have hgk : (g p).key = p.key := by rw [hgp]
          rw [hgk]
          exact hkey
        )
      have hgk : (g p).key = p.key := by rw [hgp]
      have hgv : (g p).value = p.value := by rw [hgp]
      rw [hgk, hgv] at hmain
      exact hmain

theorem sweep_pending_sub (cseq : Nat) :
    ∀ (n : Nat) (st : QuorumState), st.pending.length ≤ n →
    ∀ q' ∈ (sweep cseq st).pending,
      ∃ q ∈ st.pending, q.sn = q'.sn ∧ q'.required ⊆ q.required := by
  intro n
  induction n with
  | zero =>
    intro st hlen q' hq'
    have hnil : st.pending = [] := List.length_eq_zero.mp (Nat.le_zero.mp hlen)
    rw [sweep_eq_none _ _ (by rw [hnil]; rfl)] at hq'
    rw [hnil] at hq'
    exact absurd hq' (List.not_mem_nil q')
  | succ n ih =>
    intro st hlen q' hq'
    cases hfe : findEmpty st.pending with
    | none =>
      rw [sweep_eq_none _ _ hfe] at hq'
      exact ⟨q', hq', rfl, List.Subset.refl _⟩
    | some pr =>
      obtain ⟨p, rest⟩ := pr
      rw [sweep_eq_some _ _ _ _ hfe] at hq'
      obtain ⟨hpmem, hpreq, hrest⟩ := findEmpty_some_spec hfe
      have hlen2 : (applyRequired p rest).length ≤ n := by
        have := findEmpty_length hfe
        rw [applyRequired_length]
        omega
      obtain ⟨q1, hq1, hsn, hsub⟩ := ih ⟨applyMembership p st.members,
        qInsert p.key (p.value, cseq) st.map, applyRequired p rest,
        st.history ++ [(p.key, p.value, cseq)]⟩ hlen2 q' hq'
      simp only at hq1
      unfold applyRequired at hq1
      by_cases hkey : p.key = "leave"
      · rw [if_pos hkey] at hq1
        obtain ⟨r, hr, hfr⟩ := List.mem_map.mp hq1
        refine ⟨r, hrest r hr, ?_, ?_⟩
        · rw [← hsn, ← hfr]
          rfl
        · intro x hx
          have hx2 := hsub hx
          rw [← hfr] at hx2
          exact List.filter_subset' r.required hx2
      · rw [if_neg hkey] at hq1
        exact ⟨q1, hrest q1 hq1, hsn, hsub⟩

theorem stepMsg_required_from (s : QuorumState) (m : QMsg) (q' : Proposal)
    (hq' : q' ∈ (stepMsg s m).pending) (c : String) (hc : c ∈ q'.required) :
    (∃ q ∈ s.pending, q.sn = q'.sn ∧ c ∈ q.required)
    ∨ (q'.sn = m.seq ∧ c ∈ s.members) := by
  rw [stepMsg] at hq'
  obtain ⟨q1, hq1, hsn, hsub⟩ := sweep_pending_sub (m.seq + 1)
    (applyPayload s m).pending.length (applyPayload s m) (Nat.le_refl _) q' hq'
  have hc1 : c ∈ q1.required := hsub hc
  cases hm : m.payload with
  | propose k v =>
    simp only [applyPayload, hm] at hq1
    rcases List.mem_append.mp hq1 with h | h
    · exact Or.inl ⟨q1, h, hsn, hc1⟩
    · have hnew : q1 = ⟨k, v, m.seq, m.clientId, s.members⟩ := by simpa using h
      right
      rw [hnew] at hsn hc1
      exact ⟨hsn.symm, hc1⟩
  | accept psn =>
    rw [accept_step_pending s m psn hm] at hq1
    simp only at hq1
    obtain ⟨r, hr, hfr⟩ := List.mem_map.mp hq1
    left
    refine ⟨r, hr, ?_, ?_⟩
    · rw [← hsn, ← hfr]
      by_cases h : r.sn = psn
      · rw [if_pos h]
      · rw [if_neg h]
    · rw [← hfr] at hc1
      by_cases h : r.sn = psn
      · rw [if_pos h] at hc1
        exact List.filter_subset' r.required hc1
      · rw [if_neg h] at hc1
        exact hc1
  | reject psn =>
    simp only [applyPayload, hm] at hq1
    exact Or.inl ⟨q1, List.mem_of_mem_filter hq1, hsn, hc1⟩
  | other =>
    simp only [applyPayload, hm] at hq1
    exact Or.inl ⟨q1, hq1, hsn, hc1⟩

/-- C1: a pending proposal all of whose required acceptors (the membership
snapshot frozen when the proposal was sequenced) send Accept — and no
required acceptor leaves — commits exactly at the sequence number
following the last required Accept: after processing the accepts, the
committed map binds the proposal's key to its value with commit sequence
number one past the last accept's sequence number. Moreover (second part)
the required-acceptance set is frozen at proposal time: any client
required by a pending proposal after any step was either already required
by the proposal with that sequence number before the step or the proposal
was created by this very message with the then-current membership, so
clients joining after proposal time are never required to accept. -/
theorem C1_commit_follows_last_accept
    (st : QuorumState) (p : Proposal) (accs : List QMsg) (last : QMsg)
    (hp : p ∈ st.pending)
    (huniq : ∀ q ∈ st.pending, q.sn = p.sn → q = p)
    (hne : ∀ q ∈ st.pending, q ≠ p → q.required ≠ [])
    (hnd : p.required.Nodup)
    (hmap : accs.map (fun x => x.clientId) = p.required)
    (hpay : ∀ x ∈ accs, x.payload = QPayload.accept p.sn)
    (hlast : accs.getLast? = some last)
    (hkey : p.key ≠ "leave") :
    qLookup p.key (accs.foldl stepMsg st).map = some (p.value, last.seq + 1)
    ∧ ∀ (s : QuorumState) (m : QMsg), ∀ q' ∈ (stepMsg s m).pending,
        ∀ c ∈ q'.required,
          (∃ q ∈ s.pending, q.sn = q'.sn ∧ c ∈ q.required)
          ∨ (q'.sn = m.seq ∧ c ∈ s.members) :=
  ⟨accept_run_commits accs st p last hp huniq hne hnd hmap hpay hlast hkey,
   fun s m q' hq' c hc => stepMsg_required_from s m q' hq' c hc⟩

theorem C1_witness :
    qLookup "activeCode"
      (([⟨2, "c1", QPayload.accept 1⟩, ⟨3, "c2", QPayload.accept 1⟩] : List QMsg).foldl
        stepMsg
        (⟨["c1", "c2"], [], [⟨"activeCode", "pkgV2", 1, "c1", ["c1", "c2"]⟩], []⟩ : QuorumState)).map
      = some ("pkgV2", 3 + 1) :=
  (C1_commit_follows_last_accept
    (⟨["c1", "c2"], [], [⟨"activeCode", "pkgV2", 1, "c1", ["c1", "c2"]⟩], []⟩ : QuorumState)
    (⟨"activeCode", "pkgV2", 1, "c1", ["c1", "c2"]⟩ : Proposal)
    ([⟨2, "c1", QPayload.accept 1⟩, ⟨3, "c2", QPayload.accept 1⟩] : List QMsg)
    (⟨3, "c2", QPayload.accept 1⟩ : QMsg)
    (by decide) (by decide) (by decide) (by decide) (by decide) (by decide)
    (by decide) (by decide)).1

/-! ## Frame properties of the committed map -/

theorem applyPayload_map (st : QuorumState) (m : QMsg) :
    (applyPayload st m).map = st.map := by
  cases hm : m.payload <;> simp [applyPayload, hm]

theorem applyPayload_history (st : QuorumState) (m : QMsg) :
    (applyPayload st m).history = st.history := by
  cases hm : m.payload <;> simp [applyPayload, hm]

theorem sweep_history_extends (cseq : Nat) :
    ∀ (n : Nat) (st : QuorumState), st.pending.length ≤ n →
    ∃ l, (sweep cseq st).history = st.history ++ l := by
  intro n
  induction n with
  | zero =>
    intro st hlen
    have hnil : st.pending = [] := List.length_eq_zero.mp (Nat.le_zero.mp hlen)
    rw [sweep_eq_none _ _ (by rw [hnil]; rfl)]
    exact ⟨[], by simp⟩
  | succ n ih =>
    intro st hlen
    cases hfe : findEmpty st.pending with
    | none =>
      rw [sweep_eq_none _ _ hfe]
      exact ⟨[], by simp⟩
    | some pr =>
      obtain ⟨p, rest⟩ := pr
      rw [sweep_eq_some _ _ _ _ hfe]
      have hlen2 : (applyRequired p rest).length ≤ n := by
        have := findEmpty_length hfe
        rw [applyRequired_length]
        omega
      obtain ⟨l, hl⟩ := ih ⟨applyMembership p st.members,
        qInsert p.key (p.value, cseq) st.map, applyRequired p rest,
        st.history ++ [(p.key, p.value, cseq)]⟩ hlen2
      refine ⟨(p.key, p.value, cseq) :: l, ?_⟩
      rw [hl]
      simp

theorem sweep_map_of_history (cseq : Nat) (st : QuorumState)
    (h : (sweep cseq st).history = st.history) : (sweep cseq st).map = st.map := by
  cases hfe : findEmpty st.pending with
  | none => rw [sweep_eq_none _ _ hfe]
  | some pr =>
    obtain ⟨p, rest⟩ := pr
    exfalso
    rw [sweep_eq_some _ _ _ _ hfe] at h
    obtain ⟨l, hl⟩ := sweep_history_extends cseq
      (applyRequired p rest).length ⟨applyMembership p st.members,
        qInsert p.key (p.value, cseq) st.map, applyRequired p rest,
        st.history ++ [(p.key, p.value, cseq)]⟩ (Nat.le_refl _)
    rw [hl] at h
    simp at h

/-- C8: processing a Reject — or any message that commits nothing — leaves
the quorum's committed-facts map unchanged: a rejected proposal never
mutates the map (first part, for states where no pending proposal is
already complete, which holds for every reachable state since the sweep
runs to fixpoint), and in general any step that appends no commit event
leaves the map untouched, so the map is mutated only by proposal
commits (second part). -/
theorem C8_reject_frame :
    (∀ (st : QuorumState) (m : QMsg) (psn : Nat),
      (∀ q ∈ st.pending, q.required ≠ []) →
      m.payload = QPayload.reject psn →
      (stepMsg st m).map = st.map ∧ (stepMsg st m).history = st.history)
    ∧ (∀ (st : QuorumState) (m : QMsg),
        (stepMsg st m).history = st.history → (stepMsg st m).map = st.map) := by
  constructor
  · intro st m psn hne hp
    have happ : applyPayload st m
        = { st with pending := st.pending.filter (fun p => p.sn ≠ psn) } := by
      simp [applyPayload, hp]
    have hnoop : sweep (m.seq + 1) (applyPayload st m) = applyPayload st m := by
      apply sweep_noop
      intro q hq
      rw [happ] at hq
      simp only at hq
      exact hne q (List.mem_of_mem_filter hq)
    constructor
    · rw [stepMsg, hnoop, happ]
    · rw [stepMsg, hnoop, happ]
  · intro st m h
    rw [stepMsg] at h ⊢
    rw [← applyPayload_history st m] at h
    rw [sweep_map_of_history _ _ h]
    exact applyPayload_map st m

theorem C8_witness :
    (stepMsg ⟨["c1"], [("x", "y", 1)], [⟨"k", "v", 1, "c1", ["c1"]⟩], []⟩
        ⟨2, "c1", QPayload.reject 1⟩).map
      = (⟨["c1"], [("x", "y", 1)], [⟨"k", "v", 1, "c1", ["c1"]⟩], []⟩ : QuorumState).map
    ∧ (stepMsg ⟨["c1"], [("x", "y", 1)], [⟨"k", "v", 1, "c1", ["c1"]⟩], []⟩
        ⟨2, "c1", QPayload.reject 1⟩).history
      = (⟨["c1"], [("x", "y", 1)], [⟨"k", "v", 1, "c1", ["c1"]⟩], []⟩ : QuorumState).history :=
  C8_reject_frame.1 ⟨["c1"], [("x", "y", 1)], [⟨"k", "v", 1, "c1", ["c1"]⟩], []⟩
    ⟨2, "c1", QPayload.reject 1⟩ 1 (by decide) rfl

/-! ## Departed members and pending proposals -/

/-- C9: in a state holding a pending leave proposal for a departed member
c (awaiting one last accept from a), a pending proposal P whose only
remaining required acceptor is c, and a further pending proposal R
requiring c and d, the accept that commits the leave fact removes c from
the membership, drops c from the required sets of all remaining pending
proposals, and thereby commits P in the same sweep at the following
sequence number; the surviving pending proposal no longer requires c, so
no commit stays blocked by the departed member. -/
theorem C9_departed_member_unblocks
    (mem : List String) (mp hist : List (String × String × Nat))
    (a c d : String) (sL sP sR n : Nat) (pr1 pr2 pr3 kP vP kR vR : String)
    (hdc : d ≠ c) (hsP : sP ≠ sL) (hsR : sR ≠ sL)
    (hkP1 : kP ≠ "leave") (hkP2 : kP ≠ "join") :
    stepMsg (⟨mem, mp, [⟨"leave", c, sL, pr1, [a]⟩, ⟨kP, vP, sP, pr2, [c]⟩, ⟨kR, vR, sR, pr3, [c, d]⟩], hist⟩ : QuorumState) (⟨n, a, QPayload.accept sL⟩ : QMsg)
      = ⟨mem.filter (fun x => x ≠ c), qInsert kP (vP, n + 1) (qInsert "leave" (c, n + 1) mp), [⟨kR, vR, sR, pr3, [d]⟩], hist ++ [("leave", c, n + 1), (kP, vP, n + 1)]⟩
    ∧ (∀ q ∈ (stepMsg (⟨mem, mp, [⟨"leave", c, sL, pr1, [a]⟩, ⟨kP, vP, sP, pr2, [c]⟩, ⟨kR, vR, sR, pr3, [c, d]⟩], hist⟩ : QuorumState) (⟨n, a, QPayload.accept sL⟩ : QMsg)).pending, c ∉ q.required)
    ∧ qLookup kP (stepMsg (⟨mem, mp, [⟨"leave", c, sL, pr1, [a]⟩, ⟨kP, vP, sP, pr2, [c]⟩, ⟨kR, vR, sR, pr3, [c, d]⟩], hist⟩ : QuorumState) (⟨n, a, QPayload.accept sL⟩ : QMsg)).map = some (vP, n + 1) := by
  have step0 : applyPayload (⟨mem, mp, [⟨"leave", c, sL, pr1, [a]⟩, ⟨kP, vP, sP, pr2, [c]⟩, ⟨kR, vR, sR, pr3, [c, d]⟩], hist⟩ : QuorumState) (⟨n, a, QPayload.accept sL⟩ : QMsg)
      = ⟨mem, mp, [⟨"leave", c, sL, pr1, []⟩, ⟨kP, vP, sP, pr2, [c]⟩, ⟨kR, vR, sR, pr3, [c, d]⟩], hist⟩ := by
    simp [applyPayload, hsP, hsR]
  have step1 : sweep (n + 1) (⟨mem, mp, [⟨"leave", c, sL, pr1, []⟩, ⟨kP, vP, sP, pr2, [c]⟩, ⟨kR, vR, sR, pr3, [c, d]⟩], hist⟩ : QuorumState)
      = sweep (n + 1) (⟨mem.filter (fun x => x ≠ c), qInsert "leave" (c, n + 1) mp, [⟨kP, vP, sP, pr2, []⟩, ⟨kR, vR, sR, pr3, [d]⟩], hist ++ [("leave", c, n + 1)]⟩ : QuorumState) := by
    rw [sweep_eq_some (n + 1) ⟨mem, mp, [⟨"leave", c, sL, pr1, []⟩, ⟨kP, vP, sP, pr2, [c]⟩, ⟨kR, vR, sR, pr3, [c, d]⟩], hist⟩ ⟨"leave", c, sL, pr1, []⟩ [⟨kP, vP, sP, pr2, [c]⟩, ⟨kR, vR, sR, pr3, [c, d]⟩] rfl]
    congr 1
    simp [applyMembership, applyRequired, dropReq, hdc]
  have step2 : sweep (n + 1) (⟨mem.filter (fun x => x ≠ c), qInsert "leave" (c, n + 1) mp, [⟨kP, vP, sP, pr2, []⟩, ⟨kR, vR, sR, pr3, [d]⟩], hist ++ [("leave", c, n + 1)]⟩ : QuorumState)
      = sweep (n + 1) (⟨mem.filter (fun x => x ≠ c), qInsert kP (vP, n + 1) (qInsert "leave" (c, n + 1) mp), [⟨kR, vR, sR, pr3, [d]⟩], (hist ++ [("leave", c, n + 1)]) ++ [(kP, vP, n + 1)]⟩ : QuorumState) := by
    rw [sweep_eq_some (n + 1) ⟨mem.filter (fun x => x ≠ c), qInsert "leave" (c, n + 1) mp, [⟨kP, vP, sP, pr2, []⟩, ⟨kR, vR, sR, pr3, [d]⟩], hist ++ [("leave", c, n + 1)]⟩ ⟨kP, vP, sP, pr2, []⟩ [⟨kR, vR, sR, pr3, [d]⟩] rfl]
    congr 1
    simp [applyMembership, applyRequired, hkP1, hkP2]
  have hmain : stepMsg (⟨mem, mp, [⟨"leave", c, sL, pr1, [a]⟩, ⟨kP, vP, sP, pr2, [c]⟩, ⟨kR, vR, sR, pr3, [c, d]⟩], hist⟩ : QuorumState) (⟨n, a, QPayload.accept sL⟩ : QMsg)
      = ⟨mem.filter (fun x => x ≠ c), qInsert kP (vP, n + 1) (qInsert "leave" (c, n + 1) mp), [⟨kR, vR, sR, pr3, [d]⟩], hist ++ [("leave", c, n + 1), (kP, vP, n + 1)]⟩ := by
    rw [stepMsg, step0, step1, step2,
      sweep_eq_none (n + 1) ⟨mem.filter (fun x => x ≠ c), qInsert kP (vP, n + 1) (qInsert "leave" (c, n + 1) mp), [⟨kR, vR, sR, pr3, [d]⟩], (hist ++ [("leave", c, n + 1)]) ++ [(kP, vP, n + 1)]⟩ rfl]
    simp
  refine ⟨hmain, ?_, ?_⟩
  · rw [hmain]
    intro q hq
    have hq2 : q = ⟨kR, vR, sR, pr3, [d]⟩ := by simpa using hq
    subst hq2
    simp only [List.mem_singleton]
    intro hcd
    exact hdc hcd.symm
  · rw [hmain]
    exact qLookup_qInsert_self kP (vP, n + 1) _

theorem C9_witness :
    stepMsg (⟨["c2"], [], [⟨"leave", "c1", 1, "c2", ["c2"]⟩, ⟨"activeCode", "pkgV2", 2, "c1", ["c1"]⟩, ⟨"other", "v", 3, "c2", ["c1", "c3"]⟩], []⟩ : QuorumState) (⟨4, "c2", QPayload.accept 1⟩ : QMsg)
      = ⟨["c2"].filter (fun x => x ≠ "c1"), qInsert "activeCode" ("pkgV2", 5) (qInsert "leave" ("c1", 5) []), [⟨"other", "v", 3, "c2", ["c3"]⟩], [] ++ [("leave", "c1", 5), ("activeCode", "pkgV2", 5)]⟩
    ∧ (∀ q ∈ (stepMsg (⟨["c2"], [], [⟨"leave", "c1", 1, "c2", ["c2"]⟩, ⟨"activeCode", "pkgV2", 2, "c1", ["c1"]⟩, ⟨"other", "v", 3, "c2", ["c1", "c3"]⟩], []⟩ : QuorumState) (⟨4, "c2", QPayload.accept 1⟩ : QMsg)).pending, "c1" ∉ q.required)
    ∧ qLookup "activeCode" (stepMsg (⟨["c2"], [], [⟨"leave", "c1", 1, "c2", ["c2"]⟩, ⟨"activeCode", "pkgV2", 2, "c1", ["c1"]⟩, ⟨"other", "v", 3, "c2", ["c1", "c3"]⟩], []⟩ : QuorumState) (⟨4, "c2", QPayload.accept 1⟩ : QMsg)).map = some ("pkgV2", 5) :=
  C9_departed_member_unblocks ["c2"] [] [] "c2" "c1" "c3" 1 2 3 4 "c2" "c1" "c2"
    "activeCode" "pkgV2" "other" "v" (by decide) (by decide) (by decide)
    (by decide) (by decide)

/-- A small concrete sequenced history: one member joins, proposes a code
package, and accepts its own proposal. -/
def demoHistory : List QMsg :=
  [⟨1, "c1", QPayload.propose "join" "c1"⟩,
   ⟨2, "c1", QPayload.propose "activeCode" "pkgV2"⟩,
   ⟨3, "c1", QPayload.accept 2⟩]

theorem C2_witness :
    (runQuorum demoHistory).map = (runQuorum demoHistory).map
    ∧ (runQuorum demoHistory).history = (runQuorum demoHistory).history
    ∧ ∀ k, qLookup k (runQuorum demoHistory).map = qLookup k (runQuorum demoHistory).map :=
  C2_replay_determinism demoHistory (runQuorum demoHistory) (runQuorum demoHistory)
    (quorumRun_runQuorum demoHistory) (quorumRun_runQuorum demoHistory)

theorem C5_witness :
    seqInbound ⟨3, []⟩ ⟨5, 0, none, 0⟩ = Except.error CoreError.sequenceGap
    ∧ onInbound ConnectionState.Connected ⟨3, []⟩ ⟨5, 0, none, 0⟩
        = (ConnectionState.Disconnected, ⟨3, []⟩) :=
  C5_gap_error ConnectionState.Connected ⟨3, []⟩ ⟨5, 0, none, 0⟩ (by decide)

end Fluid

namespace FluidPkg

/-! ## Package classification theorems -/

/-- C10: `isFluidPackage pkg` is truthy exactly when `pkg.fluid`,
`pkg.fluid.browser` and `pkg.fluid.browser.umd` are all truthy; a package
whose `fluid.browser` section defines only a non-umd library target is
not classified as a Fluid package; and when `pkg.fluid` is absent the
function returns undefined rather than false. -/
theorem C10_isFluidPackage_truthiness :
    (∀ pkg : JsValue,
      truthy (isFluidPackage pkg) = true ↔
        (truthy (jsGet pkg "fluid") = true
          ∧ truthy (jsGet (jsGet pkg "fluid") "browser") = true
          ∧ truthy (jsGet (jsGet (jsGet pkg "fluid") "browser") "umd") = true))
    ∧ truthy (isFluidPackage cjsOnlyPackage) = false
    ∧ (∀ pkg : JsValue, jsGet pkg "fluid" = JsValue.undefined →
        isFluidPackage pkg = JsValue.undefined) := by
  refine ⟨?_, ?_, ?_⟩
  · intro pkg
    unfold isFluidPackage
    by_cases hf : truthy (jsGet pkg "fluid") = true
    · by_cases hb : truthy (jsGet (jsGet pkg "fluid") "browser") = true
      · simp [hf, hb]
      · simp [hf, hb]
    · simp [hf]
  · rfl
  · intro pkg h
    unfold isFluidPackage
    simp [h, truthy]

theorem C10_witness : isFluidPackage plainPackage = JsValue.undefined :=
  C10_isFluidPackage_truthiness.2.2 plainPackage rfl

end FluidPkg

